import Mathlib

/-!
Verification of the Banglish-to-Bengali transliteration engine
(`convertBanglishToBengali` / `convertWord` and their constant mapping
tables).

Strings are modelled as lists of Unicode scalar characters (`Str`); all
glyphs involved lie in the Basic Multilingual Plane, so this agrees with
the UTF-16 code-unit view of the source.  Key lookup in the constant
string-keyed object tables is modelled as association-list lookup, and
the truthiness test `if (table[key])` as the lookup returning `some`
(every table value is a nonempty string).
-/

set_option maxHeartbeats 1000000

namespace Banglish

/-- Strings as lists of characters. -/
abbrev Str := List Char

/-- Association-list lookup, modelling key lookup in a constant
string-keyed object table. -/
def lookupM : List (Str × Str) → Str → Option Str
  | [], _ => none
  | (k, v) :: rest, s => if s = k then some v else lookupM rest s

def consonants : List (Str × Str) := [
  ("kh".toList, "\u0996".toList),
  ("gh".toList, "\u0998".toList),
  ("ng".toList, "\u0982".toList),
  ("ch".toList, "\u099A".toList),
  ("chh".toList, "\u099B".toList),
  ("jh".toList, "\u099D".toList),
  ("nh".toList, "\u099E".toList),
  ("th".toList, "\u09A5".toList),
  ("dh".toList, "\u09A7".toList),
  ("ph".toList, "\u09AB".toList),
  ("bh".toList, "\u09AD".toList),
  ("sh".toList, "\u09B6".toList),
  ("Sh".toList, "\u09B7".toList),
  ("rh".toList, "\u09A2\u09BC".toList),
  ("Rh".toList, "\u09A2\u09BC".toList),
  ("k".toList, "\u0995".toList),
  ("g".toList, "\u0997".toList),
  ("c".toList, "\u099A".toList),
  ("j".toList, "\u099C".toList),
  ("t".toList, "\u09A4".toList),
  ("d".toList, "\u09A6".toList),
  ("n".toList, "\u09A8".toList),
  ("p".toList, "\u09AA".toList),
  ("b".toList, "\u09AC".toList),
  ("m".toList, "\u09AE".toList),
  ("y".toList, "\u09AF".toList),
  ("r".toList, "\u09B0".toList),
  ("l".toList, "\u09B2".toList),
  ("w".toList, "\u0993".toList),
  ("v".toList, "\u09AD".toList),
  ("s".toList, "\u09B8".toList),
  ("h".toList, "\u09B9".toList),
  ("R".toList, "\u09A1\u09BC".toList),
  ("Y".toList, "\u09AF\u09BC".toList),
  ("q".toList, "\u0995".toList),
  ("f".toList, "\u09AB".toList),
  ("z".toList, "\u09AF".toList),
  ("x".toList, "\u0995\u09CD\u09B8".toList),
  ("T".toList, "\u099F".toList),
  ("D".toList, "\u09A1".toList),
  ("N".toList, "\u09A3".toList)
]

def vowels : List (Str × Str) := [
  ("a".toList, "\u09BE".toList),
  ("aa".toList, "\u09BE".toList),
  ("i".toList, "\u09BF".toList),
  ("ii".toList, "\u09C0".toList),
  ("u".toList, "\u09C1".toList),
  ("uu".toList, "\u09C2".toList),
  ("e".toList, "\u09C7".toList),
  ("ee".toList, "\u09C0".toList),
  ("oi".toList, "\u09C8".toList),
  ("o".toList, "\u09CB".toList),
  ("oo".toList, "\u09C1".toList),
  ("ou".toList, "\u09CC".toList),
  ("A".toList, "\u09BE".toList)
]

def independentVowels : List (Str × Str) := [
  ("a".toList, "\u0985".toList),
  ("aa".toList, "\u0986".toList),
  ("i".toList, "\u0987".toList),
  ("ii".toList, "\u0988".toList),
  ("u".toList, "\u0989".toList),
  ("uu".toList, "\u098A".toList),
  ("e".toList, "\u098F".toList),
  ("oi".toList, "\u0990".toList),
  ("o".toList, "\u0993".toList),
  ("ou".toList, "\u0994".toList),
  ("ri".toList, "\u098B".toList),
  ("A".toList, "\u0986".toList)
]

def karsL : List Char := ['\u09BE', '\u09BF', '\u09C0', '\u09C1', '\u09C2', '\u09C3', '\u09C7', '\u09C8', '\u09CB', '\u09CC']

def numbers : List (Str × Str) := [
  ("0".toList, "\u09E6".toList),
  ("1".toList, "\u09E7".toList),
  ("2".toList, "\u09E8".toList),
  ("3".toList, "\u09E9".toList),
  ("4".toList, "\u09EA".toList),
  ("5".toList, "\u09EB".toList),
  ("6".toList, "\u09EC".toList),
  ("7".toList, "\u09ED".toList),
  ("8".toList, "\u09EE".toList),
  ("9".toList, "\u09EF".toList)
]

def commonWords : List (Str × Str) := [
  ("ami".toList, "\u0986\u09AE\u09BF".toList),
  ("tumi".toList, "\u09A4\u09C1\u09AE\u09BF".toList),
  ("apni".toList, "\u0986\u09AA\u09A8\u09BF".toList),
  ("tini".toList, "\u09A4\u09BF\u09A8\u09BF".toList),
  ("amra".toList, "\u0986\u09AE\u09B0\u09BE".toList),
  ("tomra".toList, "\u09A4\u09CB\u09AE\u09B0\u09BE".toList),
  ("apnara".toList, "\u0986\u09AA\u09A8\u09BE\u09B0\u09BE".toList),
  ("tara".toList, "\u09A4\u09BE\u09B0\u09BE".toList),
  ("ki".toList, "\u0995\u09BF".toList),
  ("keno".toList, "\u0995\u09C7\u09A8".toList),
  ("kothai".toList, "\u0995\u09CB\u09A5\u09BE\u09AF\u09BC".toList),
  ("kokhon".toList, "\u0995\u0996\u09A8".toList),
  ("kibhabe".toList, "\u0995\u09BF\u09AD\u09BE\u09AC\u09C7".toList),
  ("eto".toList, "\u098F\u09A4".toList),
  ("oto".toList, "\u0993\u09A4".toList),
  ("ei".toList, "\u098F\u0987".toList),
  ("oi".toList, "\u0993\u0987".toList),
  ("hae".toList, "\u09B9\u09CD\u09AF\u09BE\u0981".toList),
  ("na".toList, "\u09A8\u09BE".toList),
  ("nai".toList, "\u09A8\u09BE\u0987".toList),
  ("ache".toList, "\u0986\u099B\u09C7".toList),
  ("chhilo".toList, "\u099B\u09BF\u09B2".toList),
  ("hobe".toList, "\u09B9\u09AC\u09C7".toList),
  ("kora".toList, "\u0995\u09B0\u09BE".toList),
  ("kore".toList, "\u0995\u09B0\u09C7".toList),
  ("korechhi".toList, "\u0995\u09B0\u09C7\u099B\u09BF".toList),
  ("korbo".toList, "\u0995\u09B0\u09AC".toList),
  ("ekta".toList, "\u098F\u0995\u099F\u09BE".toList),
  ("ekti".toList, "\u098F\u0995\u099F\u09BF".toList),
  ("khaoa".toList, "\u0996\u09BE\u0993\u09AF\u09BC\u09BE".toList),
  ("ghum".toList, "\u0998\u09C1\u09AE".toList),
  ("bhat".toList, "\u09AD\u09BE\u09A4".toList),
  ("pani".toList, "\u09AA\u09BE\u09A8\u09BF".toList),
  ("jol".toList, "\u099C\u09B2".toList),
  ("dhonnobad".toList, "\u09A7\u09A8\u09CD\u09AF\u09AC\u09BE\u09A6".toList),
  ("shukriya".toList, "\u09B6\u09C1\u0995\u09CD\u09B0\u09BF\u09AF\u09BC\u09BE".toList),
  ("valo".toList, "\u09AD\u09BE\u09B2\u09CB".toList),
  ("bhalo".toList, "\u09AD\u09BE\u09B2\u09CB".toList),
  ("kharap".toList, "\u0996\u09BE\u09B0\u09BE\u09AA".toList),
  ("sundor".toList, "\u09B8\u09C1\u09A8\u09CD\u09A6\u09B0".toList),
  ("amar".toList, "\u0986\u09AE\u09BE\u09B0".toList),
  ("tomar".toList, "\u09A4\u09CB\u09AE\u09BE\u09B0".toList),
  ("tar".toList, "\u09A4\u09BE\u09B0".toList),
  ("jodi".toList, "\u09AF\u09A6\u09BF".toList),
  ("tahole".toList, "\u09A4\u09BE\u09B9\u09B2\u09C7".toList),
  ("kintu".toList, "\u0995\u09BF\u09A8\u09CD\u09A4\u09C1".toList),
  ("ebong".toList, "\u098F\u09AC\u0982".toList),
  ("ba".toList, "\u09AC\u09BE".toList),
  ("theke".toList, "\u09A5\u09C7\u0995\u09C7".toList)
]


/-- The slice `word.substring(i, i + n)` (clamped at the end of the string). -/
def substr (w : Str) (i n : Nat) : Str := (w.drop i).take n

/-- The character `word.charAt(i)`; only ever used at positions `i < word.length`. -/
def charAt (w : Str) (i : Nat) : Char := w.getD i ' '

/-- The fallback chain `independentVowels[two] || independentVowels[two.charAt(0)] || two`. -/
def indepOf2 (two : Str) : Str :=
  match lookupM independentVowels two with
  | some g => g
  | none =>
    match lookupM independentVowels (two.take 1) with
    | some g => g
    | none => two

/-- The fallback chain `independentVowels[single] || single`. -/
def indepOf1 (c : Char) : Str :=
  match lookupM independentVowels [c] with
  | some g => g
  | none => [c]

/-- One iteration of the scan loop of `convertWord`: given the word, the
current position `i` and the output accumulated so far (`result`), return
the characters emitted by this iteration and the amount by which `i`
advances.  The branch structure mirrors the source: 3-character consonant,
2-character consonant, 2-character vowel, then single-character number /
consonant / vowel / passthrough. -/
def convStep (word : Str) (i : Nat) (result : Str) : Str × Nat :=
  match (if i + 2 < word.length then lookupM consonants (substr word i 3) else none) with
  | some g => (g, 3)
  | none =>
    match (if i + 1 < word.length then lookupM consonants (substr word i 2) else none) with
    | some g => (g, 2)
    | none =>
      match (if i + 1 < word.length then lookupM vowels (substr word i 2) else none) with
      | some g =>
        (if result = [] ∨ i = 0 then indepOf2 (substr word i 2) else g, 2)
      | none =>
        match lookupM numbers [charAt word i] with
        | some g => (g, 1)
        | none =>
          match lookupM consonants [charAt word i] with
          | some g => (g, 1)
          | none =>
            match lookupM vowels [charAt word i] with
            | some g =>
              (if result = [] ∨ i = 0 then indepOf1 (charAt word i)
               else if result.getLastD ' ' ∈ karsL then [charAt word i] else g, 1)
            | none => ([charAt word i], 1)

/-- The scan loop of `convertWord` (`while (i < word.length) ...`). -/
def convGo (word : Str) (i : Nat) (result : Str) : Str :=
  if _h : i < word.length then
    convGo word (i + (convStep word i result).2) (result ++ (convStep word i result).1)
  else result
termination_by word.length - i
decreasing_by
  have h1 : 1 ≤ (convStep word i result).2 := by
    unfold convStep
    cases (if i + 2 < word.length then lookupM consonants (substr word i 3) else none) <;> simp
    cases (if i + 1 < word.length then lookupM consonants (substr word i 2) else none) <;> simp
    cases (if i + 1 < word.length then lookupM vowels (substr word i 2) else none) <;> simp
    cases lookupM numbers [charAt word i] <;> simp
    cases lookupM consonants [charAt word i] <;> simp
    cases lookupM vowels [charAt word i] <;> simp
  omega

/-- The character engine `convertWord`. -/
def convertWord (word : Str) : Str := convGo word 0 []

/-- Association-list lookup for the character-level case-folding table. -/
def lookupC : List (Char × Char) → Char → Option Char
  | [], _ => none
  | (k, v) :: rest, c => if c = k then some v else lookupC rest c

/-- The character-wise case foldings of `toLowerCase` that can reach a
character of a table key: the ASCII letters A-Z, and U+212A (KELVIN
SIGN), the one further code point whose Unicode lowercase is an ASCII
letter.  Every other code point either lower-cases to itself or to a
string that matches no key of the dictionary and no inherited
`Object.prototype` property name (those consist of `a`-`z` and `_`
only), so every lookup driven by the folded string agrees with the
source's full-Unicode `toLowerCase`. -/
def lowerTable : List (Char × Char) := [
  ('A', 'a'), ('B', 'b'), ('C', 'c'), ('D', 'd'), ('E', 'e'), ('F', 'f'),
  ('G', 'g'), ('H', 'h'), ('I', 'i'), ('J', 'j'), ('K', 'k'), ('L', 'l'),
  ('M', 'm'), ('N', 'n'), ('O', 'o'), ('P', 'p'), ('Q', 'q'), ('R', 'r'),
  ('S', 's'), ('T', 't'), ('U', 'u'), ('V', 'v'), ('W', 'w'), ('X', 'x'),
  ('Y', 'y'), ('Z', 'z'), ('\u212A', 'k')]

/-- One character of `word.toLowerCase()` (see `lowerTable` for the
modelling boundary). -/
def toLowerChar (c : Char) : Char := (lookupC lowerTable c).getD c

/-- Lower-casing `word.toLowerCase()`. -/
def toLowerStr (w : Str) : Str := w.map toLowerChar

/-- Splitting `text.split(' ')` on the literal space character. -/
def splitSpace : Str → List Str
  | [] => [[]]
  | c :: rest =>
    if c = ' ' then [] :: splitSpace rest
    else
      match splitSpace rest with
      | [] => [[c]]
      | w :: ws => (c :: w) :: ws

/-- Rejoining `words.join(' ')` with a single space. -/
def joinSpace : List Str → Str
  | [] => []
  | [w] => w
  | w :: x :: ws => w ++ ' ' :: joinSpace (x :: ws)

/-- The inherited `Object.prototype` properties reachable through the
probe `if (commonWords[lowerWord])` in the source: JavaScript property
access walks the prototype chain, and of the prototype's properties
exactly the all-lowercase names `constructor` and `__proto__` can equal
a lower-cased word (every other name contains an upper-case letter).
Both inherited values are truthy, so the word maps to the string that
the program's `join(' ')` later makes of the returned value:
`String(Object)` and `String(Object.prototype)`. -/
def protoProps : List (Str × Str) := [
  ("constructor".toList, "function Object() \x7b [native code] \x7d".toList),
  ("__proto__".toList, "[object Object]".toList)]

/-- Per-word processing of `convertBanglishToBengali`: the probe
`commonWords[lowerWord]` finds an own key of the dictionary or an
inherited truthy `Object.prototype` property; on a miss of both, the
character engine runs. -/
def wordOut (word : Str) : Str :=
  match lookupM commonWords (toLowerStr word) with
  | some v => v
  | none =>
    match lookupM protoProps (toLowerStr word) with
    | some v => v
    | none => convertWord word

/-- The function `convertBanglishToBengali` (the public entry point `convert`). -/
def convertBanglishToBengali (text : Str) : Str :=
  if text = [] then []
  else joinSpace ((splitSpace text).map wordOut)

/-- The substrings probed at scan position `i` match no 3-, 2-, or
1-character key of any table. -/
def noKeyAt (w : Str) (i : Nat) : Prop :=
  lookupM consonants (substr w i 3) = none ∧
  lookupM consonants (substr w i 2) = none ∧
  lookupM vowels (substr w i 2) = none ∧
  lookupM numbers [charAt w i] = none ∧
  lookupM consonants [charAt w i] = none ∧
  lookupM vowels [charAt w i] = none

instance (w : Str) (i : Nat) : Decidable (noKeyAt w i) := by
  unfold noKeyAt; infer_instance

/-- Every character that any glyph emitted from the mapping tables can
contain: the characters of the consonant-, vowel- and numeral-table
values together with the independent-vowel glyphs reachable through
`indepOf2`/`indepOf1` (all independent vowels except the unreachable
`ri` entry). -/
def goodGlyphs : List Char := ['\u0996', '\u0998', '\u0982', '\u099A', '\u099B', '\u099D', '\u099E', '\u09A5', '\u09A7', '\u09AB', '\u09AD', '\u09B6', '\u09B7', '\u09A2', '\u09BC', '\u0995', '\u0997', '\u099C', '\u09A4', '\u09A6', '\u09A8', '\u09AA', '\u09AC', '\u09AE', '\u09AF', '\u09B0', '\u09B2', '\u0993', '\u09B8', '\u09B9', '\u09A1', '\u09CD', '\u099F', '\u09A3', '\u09BE', '\u09BF', '\u09C0', '\u09C1', '\u09C2', '\u09C7', '\u09C8', '\u09CB', '\u09CC', '\u09E6', '\u09E7', '\u09E8', '\u09E9', '\u09EA', '\u09EB', '\u09EC', '\u09ED', '\u09EE', '\u09EF', '\u0985', '\u0986', '\u0987', '\u0988', '\u0989', '\u098A', '\u098F', '\u0990', '\u0994']

/-- Characters of the glyphs of the independent-vowel table. -/
def indepChars : List Char := (independentVowels.map Prod.snd).flatten

end Banglish

namespace Banglish

/-! ### Generic lemmas about the embedding -/

theorem lookupM_mem {m : List (Str × Str)} {s v : Str} (h : lookupM m s = some v) : (s, v) ∈ m := by
  induction m with
  | nil => simp [lookupM] at h
  | cons p rest ih =>
    obtain ⟨k, w⟩ := p
    by_cases hk : s = k
    · subst hk
      simp [lookupM] at h
      simp [h]
    · simp [lookupM, hk] at h
      exact List.mem_cons_of_mem _ (ih h)

theorem guard_some {c : Prop} [Decidable c] {x : Option Str} {g : Str}
    (h : (if c then x else none) = some g) : c ∧ x = some g := by
  split at h
  · exact ⟨by assumption, h⟩
  · simp at h

/-- Case analysis on one scan iteration, following the probe order of the
source. -/
theorem convStep_inv (w : Str) (i : Nat) (res : Str) :
    (∃ g, (if i + 2 < w.length then lookupM consonants (substr w i 3) else none) = some g ∧
      convStep w i res = (g, 3)) ∨
    ((if i + 2 < w.length then lookupM consonants (substr w i 3) else none) = none ∧
      ∃ g, (if i + 1 < w.length then lookupM consonants (substr w i 2) else none) = some g ∧
      convStep w i res = (g, 2)) ∨
    ((if i + 2 < w.length then lookupM consonants (substr w i 3) else none) = none ∧
      (if i + 1 < w.length then lookupM consonants (substr w i 2) else none) = none ∧
      ∃ g, (if i + 1 < w.length then lookupM vowels (substr w i 2) else none) = some g ∧
      convStep w i res = (if res = [] ∨ i = 0 then indepOf2 (substr w i 2) else g, 2)) ∨
    ((if i + 2 < w.length then lookupM consonants (substr w i 3) else none) = none ∧
      (if i + 1 < w.length then lookupM consonants (substr w i 2) else none) = none ∧
      (if i + 1 < w.length then lookupM vowels (substr w i 2) else none) = none ∧
      ((∃ g, lookupM numbers [charAt w i] = some g ∧ convStep w i res = (g, 1)) ∨
       (lookupM numbers [charAt w i] = none ∧
        ∃ g, lookupM consonants [charAt w i] = some g ∧ convStep w i res = (g, 1)) ∨
       (lookupM numbers [charAt w i] = none ∧ lookupM consonants [charAt w i] = none ∧
        ∃ g, lookupM vowels [charAt w i] = some g ∧
        convStep w i res = (if res = [] ∨ i = 0 then indepOf1 (charAt w i)
          else if res.getLastD ' ' ∈ karsL then [charAt w i] else g, 1)) ∨
       (lookupM numbers [charAt w i] = none ∧ lookupM consonants [charAt w i] = none ∧
        lookupM vowels [charAt w i] = none ∧ convStep w i res = ([charAt w i], 1)))) := by
  rcases h3 : (if i + 2 < w.length then lookupM consonants (substr w i 3) else none) with _ | g3
  case some => exact Or.inl ⟨g3, rfl, by simp [convStep, h3]⟩
  rcases h2c : (if i + 1 < w.length then lookupM consonants (substr w i 2) else none) with _ | g2c
  case some => exact Or.inr (Or.inl ⟨rfl, g2c, rfl, by simp [convStep, h3, h2c]⟩)
  rcases h2v : (if i + 1 < w.length then lookupM vowels (substr w i 2) else none) with _ | g2v
  case some => exact Or.inr (Or.inr (Or.inl ⟨rfl, rfl, g2v, rfl, by simp [convStep, h3, h2c, h2v]⟩))
  rcases hn : lookupM numbers [charAt w i] with _ | gn
  case some =>
    exact Or.inr (Or.inr (Or.inr ⟨rfl, rfl, rfl, Or.inl ⟨gn, rfl, by simp [convStep, h3, h2c, h2v, hn]⟩⟩))
  rcases hc : lookupM consonants [charAt w i] with _ | gc
  case some =>
    exact Or.inr (Or.inr (Or.inr ⟨rfl, rfl, rfl,
      Or.inr (Or.inl ⟨rfl, gc, rfl, by simp [convStep, h3, h2c, h2v, hn, hc]⟩)⟩))
  rcases hv : lookupM vowels [charAt w i] with _ | gv
  case some =>
    exact Or.inr (Or.inr (Or.inr ⟨rfl, rfl, rfl,
      Or.inr (Or.inr (Or.inl ⟨rfl, rfl, gv, rfl, by simp [convStep, h3, h2c, h2v, hn, hc, hv]⟩))⟩))
  exact Or.inr (Or.inr (Or.inr ⟨rfl, rfl, rfl,
    Or.inr (Or.inr (Or.inr ⟨rfl, rfl, rfl, by simp [convStep, h3, h2c, h2v, hn, hc, hv]⟩))⟩))

theorem convStep_adv_bounds (w : Str) (i : Nat) (res : Str) :
    1 ≤ (convStep w i res).2 ∧ (convStep w i res).2 ≤ 3 := by
  rcases convStep_inv w i res with ⟨g, _, h⟩ | ⟨_, g, _, h⟩ | ⟨_, _, g, _, h⟩ |
    ⟨_, _, _, ⟨g, _, h⟩ | ⟨_, g, _, h⟩ | ⟨_, _, g, _, h⟩ | ⟨_, _, _, h⟩⟩ <;>
    rw [h] <;> simp

theorem convGo_unfold {w : Str} {i : Nat} (res : Str) (h : i < w.length) :
    convGo w i res = convGo w (i + (convStep w i res).2) (res ++ (convStep w i res).1) := by
  rw [convGo]
  simp [h]

theorem convGo_stop {w : Str} {i : Nat} (res : Str) (h : ¬ i < w.length) :
    convGo w i res = res := by
  rw [convGo]
  simp [h]

/-- The scan loop only ever appends to the accumulated output. -/
theorem convGo_append : ∀ (w : Str) (i : Nat) (res : Str), res ≠ [] → ∃ t, convGo w i res = res ++ t := by
  intro w i res
  induction i, res using convGo.induct w with
  | case1 i res h ih =>
    intro hne
    rw [convGo_unfold res h]
    obtain ⟨t, ht⟩ := ih (by simp [hne])
    exact ⟨(convStep w i res).1 ++ t, by rw [ht, List.append_assoc]⟩
  | case2 i res h =>
    intro _
    exact ⟨[], by rw [convGo_stop res h, List.append_nil]⟩


/-! ### Facts about the concrete tables (all by computation) -/

theorem consonants_val_chars : ∀ p ∈ consonants, ∀ c ∈ p.2, c ∈ goodGlyphs := by decide

theorem vowels_val_chars : ∀ p ∈ vowels, ∀ c ∈ p.2, c ∈ goodGlyphs := by decide

theorem numbers_val_chars : ∀ p ∈ numbers, ∀ c ∈ p.2, c ∈ goodGlyphs := by decide

theorem vowels_indep_good : ∀ p ∈ vowels, ∀ c ∈ indepOf2 p.1, c ∈ goodGlyphs := by decide

theorem vowels_indep_form : ∀ p ∈ vowels,
    (indepOf2 p.1).length = 1 ∧ ∀ c ∈ indepOf2 p.1, c ∈ indepChars ∧ c ∉ karsL := by decide

theorem vowels_take1_key : ∀ p ∈ vowels, (lookupM vowels (p.1.take 1)).isSome := by decide

theorem consonants_head_not_vowel_head :
    ∀ p ∈ consonants, ∀ q ∈ vowels, p.1.head? ≠ q.1.head? := by decide

theorem numbers_head_not_vowel_head :
    ∀ p ∈ numbers, ∀ q ∈ vowels, p.1.head? ≠ q.1.head? := by decide

theorem consonants_len3_chh : ∀ p ∈ consonants, p.1.length = 3 → p.1 = ['c', 'h', 'h'] := by decide

theorem consonants_snd_not_c : ∀ p ∈ consonants, p.1[1]? ≠ some 'c' := by decide

theorem vowels_snd_not_c : ∀ p ∈ vowels, p.1[1]? ≠ some 'c' := by decide

theorem commonWords_no_space_key : ∀ p ∈ commonWords, ' ' ∉ p.1 := by decide

theorem commonWords_val_clean : ∀ p ∈ commonWords, ' ' ∉ p.2 ∧ '\u098B' ∉ p.2 := by decide

theorem goodGlyphs_clean : ' ' ∉ goodGlyphs ∧ '\u098B' ∉ goodGlyphs := by decide

theorem indepOf1_eq (c : Char) : indepOf1 c = indepOf2 [c] := by
  unfold indepOf1 indepOf2
  cases h : lookupM independentVowels [c] <;> simp [h]

/-! ### Positional access -/

theorem charAt_eq {w : Str} {i : Nat} (h : i < w.length) : charAt w i = w[i] := by
  simp [charAt, List.getD_eq_getElem?_getD, List.getElem?_eq_getElem h]

theorem charAt_mem {w : Str} {i : Nat} (h : i < w.length) : charAt w i ∈ w := by
  rw [charAt_eq h]
  exact List.getElem_mem h

theorem substr_mem {w : Str} {i n : Nat} : ∀ c ∈ substr w i n, c ∈ w := by
  intro c hc
  unfold substr at hc
  exact List.mem_of_mem_drop (List.mem_of_mem_take hc)

/-! ### What one scan step can emit -/

theorem convStep_passthrough {w : Str} {i : Nat} (res : Str) (hn : noKeyAt w i) :
    convStep w i res = ([charAt w i], 1) := by
  obtain ⟨n1, n2, n3, n4, n5, n6⟩ := hn
  simp [convStep, n1, n2, n3, n4, n5, n6]

theorem convStep_chars {w : Str} {i : Nat} {res : Str} (h : i < w.length) :
    ∀ c ∈ (convStep w i res).1, c ∈ w ∨ c ∈ goodGlyphs := by
  intro c hc
  rcases convStep_inv w i res with ⟨g, hg, hs⟩ | ⟨-, g, hg, hs⟩ | ⟨-, -, g, hg, hs⟩ |
    ⟨-, -, -, ⟨g, hg, hs⟩ | ⟨-, g, hg, hs⟩ | ⟨-, -, g, hg, hs⟩ | ⟨-, -, -, hs⟩⟩
  · rw [hs] at hc
    exact Or.inr (consonants_val_chars _ (lookupM_mem (guard_some hg).2) c hc)
  · rw [hs] at hc
    exact Or.inr (consonants_val_chars _ (lookupM_mem (guard_some hg).2) c hc)
  · rw [hs] at hc
    have hmem := lookupM_mem (guard_some hg).2
    by_cases hres : res = [] ∨ i = 0
    · rw [if_pos hres] at hc
      exact Or.inr (vowels_indep_good _ hmem c hc)
    · rw [if_neg hres] at hc
      exact Or.inr (vowels_val_chars _ hmem c hc)
  · rw [hs] at hc
    exact Or.inr (numbers_val_chars _ (lookupM_mem hg) c hc)
  · rw [hs] at hc
    exact Or.inr (consonants_val_chars _ (lookupM_mem hg) c hc)
  · rw [hs] at hc
    have hmem := lookupM_mem hg
    by_cases hres : res = [] ∨ i = 0
    · rw [if_pos hres] at hc
      rw [indepOf1_eq] at hc
      exact Or.inr (vowels_indep_good _ hmem c hc)
    · rw [if_neg hres] at hc
      by_cases hk : res.getLastD ' ' ∈ karsL
      · rw [if_pos hk] at hc
        simp at hc
        exact Or.inl (hc ▸ charAt_mem h)
      · rw [if_neg hk] at hc
        exact Or.inr (vowels_val_chars _ hmem c hc)
  · rw [hs] at hc
    simp at hc
    exact Or.inl (hc ▸ charAt_mem h)

/-- Characters of the scan output come from the input word or from the
tables. -/
theorem convGo_chars (w : Str) : ∀ (i : Nat) (res : Str),
    ∀ c ∈ convGo w i res, c ∈ res ∨ c ∈ w ∨ c ∈ goodGlyphs := by
  intro i res
  induction i, res using convGo.induct w with
  | case1 i res h ih =>
    intro c hc
    rw [convGo_unfold res h] at hc
    rcases ih c hc with hres | hw | hg
    · rcases List.mem_append.mp hres with h1 | h2
      · exact Or.inl h1
      · rcases convStep_chars h c h2 with h3 | h3
        · exact Or.inr (Or.inl h3)
        · exact Or.inr (Or.inr h3)
    · exact Or.inr (Or.inl hw)
    · exact Or.inr (Or.inr hg)
  | case2 i res h =>
    intro c hc
    rw [convGo_stop res h] at hc
    exact Or.inl hc

theorem convertWord_chars {w : Str} : ∀ c ∈ convertWord w, c ∈ w ∨ c ∈ goodGlyphs := by
  intro c hc
  rcases convGo_chars w 0 [] c hc with h | h | h
  · simp at h
  · exact Or.inl h
  · exact Or.inr h


/-! ### Splitting on and rejoining with a single space -/

theorem splitSpace_ne_nil (x : Str) : splitSpace x ≠ [] := by
  induction x with
  | nil => simp [splitSpace]
  | cons c rest ih =>
    by_cases h : c = ' ' <;> simp [splitSpace, h]
    cases hs : splitSpace rest <;> simp

theorem joinSpace_splitSpace (x : Str) : joinSpace (splitSpace x) = x := by
  induction x with
  | nil => rfl
  | cons c rest ih =>
    by_cases h : c = ' '
    · subst h
      simp only [splitSpace, if_pos rfl]
      cases hs : splitSpace rest with
      | nil => exact absurd hs (splitSpace_ne_nil rest)
      | cons w ws =>
        rw [hs] at ih
        simp [joinSpace, ih]
    · simp only [splitSpace, if_neg h]
      cases hs : splitSpace rest with
      | nil => exact absurd hs (splitSpace_ne_nil rest)
      | cons w ws =>
        rw [hs] at ih
        cases ws with
        | nil => simp [joinSpace] at ih ⊢; exact ih
        | cons w2 ws2 => simp [joinSpace] at ih ⊢; exact ih

theorem splitSpace_no_space (x : Str) : ∀ w ∈ splitSpace x, ' ' ∉ w := by
  induction x with
  | nil =>
    intro w hw
    simp [splitSpace] at hw
    simp [hw]
  | cons c rest ih =>
    intro w hw
    by_cases h : c = ' '
    · subst h
      simp only [splitSpace, if_pos rfl] at hw
      rcases List.mem_cons.mp hw with h1 | h1
      · simp [h1]
      · exact ih w h1
    · simp only [splitSpace, if_neg h] at hw
      cases hs : splitSpace rest with
      | nil => exact absurd hs (splitSpace_ne_nil rest)
      | cons v vs =>
        rw [hs] at hw
        rcases List.mem_cons.mp hw with h1 | h1
        · subst h1
          intro hsp
          rcases List.mem_cons.mp hsp with h2 | h2
          · exact h h2.symm
          · exact ih v (hs ▸ List.mem_cons_self v vs) h2
        · exact ih w (hs ▸ List.mem_cons_of_mem v h1)

theorem splitSpace_subset (x : Str) : ∀ w ∈ splitSpace x, ∀ c ∈ w, c ∈ x := by
  induction x with
  | nil =>
    intro w hw
    simp [splitSpace] at hw
    simp [hw]
  | cons ch rest ih =>
    intro w hw c hc
    by_cases h : ch = ' '
    · subst h
      simp only [splitSpace, if_pos rfl] at hw
      rcases List.mem_cons.mp hw with h1 | h1
      · subst h1; simp at hc
      · exact List.mem_cons_of_mem _ (ih w h1 c hc)
    · simp only [splitSpace, if_neg h] at hw
      cases hs : splitSpace rest with
      | nil => exact absurd hs (splitSpace_ne_nil rest)
      | cons v vs =>
        rw [hs] at hw
        rcases List.mem_cons.mp hw with h1 | h1
        · subst h1
          rcases List.mem_cons.mp hc with h2 | h2
          · simp [h2]
          · exact List.mem_cons_of_mem _ (ih v (hs ▸ List.mem_cons_self v vs) c h2)
        · exact List.mem_cons_of_mem _ (ih w (hs ▸ List.mem_cons_of_mem v h1) c hc)

theorem splitSpace_of_no_space {w : Str} (h : ' ' ∉ w) : splitSpace w = [w] := by
  induction w with
  | nil => rfl
  | cons c rest ih =>
    have hc : c ≠ ' ' := fun he => h (he ▸ List.mem_cons_self c rest)
    have hr : ' ' ∉ rest := fun he => h (List.mem_cons_of_mem c he)
    simp only [splitSpace, if_neg hc, ih hr]

theorem splitSpace_append {w : Str} (hw : ' ' ∉ w) :
    ∀ (s : Str) {h t}, splitSpace s = h :: t → splitSpace (w ++ s) = (w ++ h) :: t := by
  induction w with
  | nil =>
    intro s h t hs
    simpa using hs
  | cons c w2 ih =>
    intro s h t hs
    have hc : c ≠ ' ' := fun he => hw (he ▸ List.mem_cons_self c w2)
    have hw2 : ' ' ∉ w2 := fun he => hw (List.mem_cons_of_mem c he)
    simp only [List.cons_append, splitSpace, if_neg hc, List.append_eq, ih hw2 s hs]

theorem splitSpace_joinSpace_length :
    ∀ ws : List Str, ws ≠ [] → (∀ w ∈ ws, ' ' ∉ w) →
      (splitSpace (joinSpace ws)).length = ws.length := by
  intro ws
  induction ws with
  | nil => intro h; exact absurd rfl h
  | cons w ws ih =>
    intro _ hclean
    cases ws with
    | nil =>
      rw [joinSpace, splitSpace_of_no_space (hclean w (List.mem_cons_self w []))]
    | cons w2 t =>
      have hjs : splitSpace (' ' :: joinSpace (w2 :: t)) =
          [] :: splitSpace (joinSpace (w2 :: t)) := by
        simp [splitSpace]
      rw [joinSpace, splitSpace_append (hclean w (List.mem_cons_self w _)) _ hjs]
      have := ih (by simp) (fun v hv => hclean v (List.mem_cons_of_mem w hv))
      simp at this ⊢
      omega


/-! ### The fully-unmapped (passthrough) case -/

theorem convGo_id {w : Str} (H : ∀ i, i < w.length → noKeyAt w i) :
    ∀ (i : Nat) (res : Str), convGo w i res = res ++ w.drop i := by
  intro i res
  induction i, res using convGo.induct w with
  | case1 i res h ih =>
    have hp := convStep_passthrough (w := w) (i := i) res (H i h)
    rw [convGo_unfold res h, hp]
    rw [hp] at ih
    rw [ih]
    rw [charAt_eq h]
    rw [List.drop_eq_getElem_cons h]
    simp
  | case2 i res h =>
    rw [convGo_stop res h, List.drop_eq_nil_of_le (Nat.le_of_not_lt h), List.append_nil]

theorem convertWord_id {w : Str} (H : ∀ i, i < w.length → noKeyAt w i) :
    convertWord w = w := by
  rw [convertWord, convGo_id H 0 []]
  simp


/-! ### Case folding and the inherited dictionary properties -/

theorem lookupC_mem {m : List (Char × Char)} {c d : Char} (h : lookupC m c = some d) :
    (c, d) ∈ m := by
  induction m with
  | nil => simp [lookupC] at h
  | cons p rest ih =>
    obtain ⟨k, v⟩ := p
    by_cases hk : c = k
    · subst hk
      simp [lookupC] at h
      simp [h]
    · simp [lookupC, hk] at h
      exact List.mem_cons_of_mem _ (ih h)

theorem toLowerChar_cases {c d : Char} (h : toLowerChar c = d) :
    c = d ∨ (c, d) ∈ lowerTable := by
  unfold toLowerChar at h
  cases hl : lookupC lowerTable c with
  | none =>
    rw [hl] at h
    exact Or.inl h
  | some v =>
    rw [hl] at h
    simp at h
    exact Or.inr (h ▸ lookupC_mem hl)

theorem lowerTable_inv_n : ∀ p ∈ lowerTable, p.2 = 'n' → p.1 = 'N' := by decide

theorem lowerTable_inv_r : ∀ p ∈ lowerTable, p.2 = 'r' → p.1 = 'R' := by decide

theorem protoProps_no_ri : ∀ p ∈ protoProps, '\u098B' ∉ p.2 := by decide

/-- A word whose lower-casing hits an inherited `Object.prototype`
property name contains a character that is a single-character consonant
key ('n' or 'N' at position 2 of "constructor", 'r' or 'R' at position 3
of "__proto__"). -/
theorem protoProps_key_consonant {w v : Str}
    (h : lookupM protoProps (toLowerStr w) = some v) :
    ∃ j, j < w.length ∧ (lookupM consonants [charAt w j]).isSome := by
  have hmem := lookupM_mem h
  simp only [protoProps, List.mem_cons, List.mem_singleton, Prod.mk.injEq,
    List.not_mem_nil, or_false] at hmem
  rcases hmem with ⟨hk, -⟩ | ⟨hk, -⟩
  · -- "constructor": position 2 lower-cases to 'n'
    have hlen : w.length = 11 := by
      have hl := congrArg List.length hk
      simpa [toLowerStr] using hl
    have h2lt : 2 < w.length := by omega
    have h2 : toLowerChar w[2] = 'n' := by
      have hg := congrArg (fun l => l[2]?) hk
      simp only [toLowerStr, List.getElem?_map, List.getElem?_eq_getElem h2lt] at hg
      have hrhs : "constructor".toList[2]? = some 'n' := by decide
      rw [hrhs] at hg
      exact Option.some.inj hg
    refine ⟨2, h2lt, ?_⟩
    rcases toLowerChar_cases h2 with h4 | h4
    · rw [charAt_eq h2lt, h4]
      decide
    · have h5 : w[2] = 'N' := lowerTable_inv_n _ h4 rfl
      rw [charAt_eq h2lt, h5]
      decide
  · -- "__proto__": position 3 lower-cases to 'r'
    have hlen : w.length = 9 := by
      have hl := congrArg List.length hk
      simpa [toLowerStr] using hl
    have h3lt : 3 < w.length := by omega
    have h3 : toLowerChar w[3] = 'r' := by
      have hg := congrArg (fun l => l[3]?) hk
      simp only [toLowerStr, List.getElem?_map, List.getElem?_eq_getElem h3lt] at hg
      have hrhs : "__proto__".toList[3]? = some 'r' := by decide
      rw [hrhs] at hg
      exact Option.some.inj hg
    refine ⟨3, h3lt, ?_⟩
    rcases toLowerChar_cases h3 with h4 | h4
    · rw [charAt_eq h3lt, h4]
      decide
    · have h5 : w[3] = 'R' := lowerTable_inv_r _ h4 rfl
      rw [charAt_eq h3lt, h5]
      decide

/-! ### Per-word character provenance -/

theorem wordOut_chars {w : Str} :
    ∀ c ∈ wordOut w,
      c ∈ w ∨ c ∈ goodGlyphs ∨ (∃ p ∈ commonWords, c ∈ p.2) ∨ ∃ p ∈ protoProps, c ∈ p.2 := by
  intro c hc
  rcases hdo : lookupM commonWords (toLowerStr w) with _ | u
  · rcases hpo : lookupM protoProps (toLowerStr w) with _ | v
    · simp only [wordOut, hdo, hpo] at hc
      rcases convertWord_chars c hc with h | h
      · exact Or.inl h
      · exact Or.inr (Or.inl h)
    · simp only [wordOut, hdo, hpo] at hc
      exact Or.inr (Or.inr (Or.inr ⟨_, lookupM_mem hpo, hc⟩))
  · simp only [wordOut, hdo] at hc
    exact Or.inr (Or.inr (Or.inl ⟨_, lookupM_mem hdo, hc⟩))

theorem joinSpace_mem {c : Char} :
    ∀ {ws : List Str}, c ∈ joinSpace ws → c = ' ' ∨ ∃ w ∈ ws, c ∈ w := by
  intro ws
  induction ws with
  | nil => intro h; simp [joinSpace] at h
  | cons w ws ih =>
    cases ws with
    | nil =>
      intro h
      rw [joinSpace] at h
      exact Or.inr ⟨w, by simp, h⟩
    | cons w2 t =>
      intro h
      rw [joinSpace] at h
      rcases List.mem_append.mp h with h1 | h1
      · exact Or.inr ⟨w, by simp, h1⟩
      · rcases List.mem_cons.mp h1 with h2 | h2
        · exact Or.inl h2
        · rcases ih h2 with h3 | ⟨v, hv, hcv⟩
          · exact Or.inl h3
          · exact Or.inr ⟨v, List.mem_cons_of_mem _ hv, hcv⟩

/-! ### The claims -/

/-- C2 (counterexample): the kar set is *not* exactly the value-range of
the dependent-vowel table: the diacritic `ৃ` (U+09C3) is a member of the
kar set but is not the value of any entry of the vowels table. -/
theorem claim2_counterexample :
    '\u09C3' ∈ karsL ∧ '\u09C3' ∉ (vowels.map Prod.snd).flatten := by decide

/-- C2 (amended): every character of every value of the dependent-vowel
table is in the kar set, and every member of the kar set other than `ৃ`
(U+09C3) is the value of some entry of the vowels table; `ৃ` itself is
not. -/
theorem claim2_kars_vs_vowel_values :
    (∀ p ∈ vowels, ∀ c ∈ p.2, c ∈ karsL) ∧
    (∀ c ∈ karsL, c = '\u09C3' ∨ ∃ p ∈ vowels, p.2 = [c]) := by decide

/-- Witness for C2 at the entry `'a' ↦ 'া'` and the kar `'া'`. -/
theorem claim2_witness :
    ('\u09BE' ∈ karsL) ∧ ('\u09BE' = '\u09C3' ∨ ∃ p ∈ vowels, p.2 = ['\u09BE']) :=
  ⟨claim2_kars_vs_vowel_values.1 ("a".toList, "\u09BE".toList) (by decide) '\u09BE' (by decide),
   claim2_kars_vs_vowel_values.2 '\u09BE' (by decide)⟩

/-- C6: `convert` of the empty string is the empty string, and whenever
the substrings probed at the current scan position match no 3-, 2- or
1-character key of any table, the scan step emits the original character
unchanged and advances by 1.  (`convStep` and `convGo` are total Lean
functions, so the engine returns a string on every input.) -/
theorem claim6_passthrough :
    convertBanglishToBengali [] = [] ∧
    ∀ (w : Str) (i : Nat) (res : Str), noKeyAt w i →
      convStep w i res = ([charAt w i], 1) :=
  ⟨rfl, fun _ _ res hn => convStep_passthrough res hn⟩

/-- Witness for C6 at the unmapped character `'!'`. -/
theorem claim6_witness : convStep ['!'] 0 [] = (['!'], 1) := by
  have h := claim6_passthrough.2 ['!'] 0 [] (by decide)
  rw [h]
  decide

/-- C9: every iteration of the scan loop advances the position by at
least 1 (and at most 3), and while the position is in range the loop
recurses exactly once with the advanced position; hence the scan (and
with it `convert`) terminates — `convGo` is accepted by Lean as a total
function on this account. -/
theorem claim9_termination :
    ∀ (w : Str) (i : Nat) (res : Str),
      (1 ≤ (convStep w i res).2 ∧ (convStep w i res).2 ≤ 3) ∧
      (i < w.length →
        convGo w i res = convGo w (i + (convStep w i res).2) (res ++ (convStep w i res).1)) :=
  fun w i res => ⟨convStep_adv_bounds w i res, fun h => convGo_unfold res h⟩

/-- Witness for C9 at the word `"ami"`, position 0. -/
theorem claim9_witness :
    (1 ≤ (convStep "ami".toList 0 []).2 ∧ (convStep "ami".toList 0 []).2 ≤ 3) ∧
    convGo "ami".toList 0 [] =
      convGo "ami".toList (0 + (convStep "ami".toList 0 []).2) ([] ++ (convStep "ami".toList 0 []).1) :=
  ⟨(claim9_termination "ami".toList 0 []).1,
   (claim9_termination "ami".toList 0 []).2 (by decide)⟩


/-- C1 (counterexample): in the non-dictionary word "kaii" the vowel
pattern "ii", adjacent to the vowel pattern "a" after the consonant "k",
is rendered as the dependent diacritic `ী` even though the previously
emitted glyph `া` is itself a kar — the output stacks two dependent
diacritics on one consonant, because the kar guard exists only in the
single-character vowel branch. -/
theorem claim1_counterexample :
    lookupM commonWords (toLowerStr "kaii".toList) = none ∧
    convertWord "kaii".toList = ['\u0995', '\u09BE', '\u09C0'] ∧
    '\u09BE' ∈ karsL ∧ '\u09C0' ∈ karsL := by
  refine ⟨by decide, ?_, by decide, by decide⟩
  simp [convertWord, convGo, convStep, substr, charAt, indepOf2, indepOf1,
    lookupM, consonants, vowels, independentVowels, numbers, karsL]

/-- C1 (amended): the diacritic-stacking guard applies only to a vowel
pattern matched as a single character: when the 3- and 2-character probes
fail, the current character is a key of the vowel table only, and the
last emitted glyph is in the kar set (with output nonempty and position
nonzero), the engine emits the vowel pattern's single-character key
literally instead of its diacritic glyph.  (A second vowel pattern
matched as two characters is still emitted as a stacked diacritic, as the
counterexample shows.) -/
theorem claim1_kar_guard_single :
    ∀ (w : Str) (i : Nat) (res : Str),
      (if i + 2 < w.length then lookupM consonants (substr w i 3) else none) = none →
      (if i + 1 < w.length then lookupM consonants (substr w i 2) else none) = none →
      (if i + 1 < w.length then lookupM vowels (substr w i 2) else none) = none →
      lookupM numbers [charAt w i] = none →
      lookupM consonants [charAt w i] = none →
      (lookupM vowels [charAt w i]).isSome →
      ¬(res = [] ∨ i = 0) →
      res.getLastD ' ' ∈ karsL →
      convStep w i res = ([charAt w i], 1) := by
  intro w i res h1 h2 h3 h4 h5 h6 h7 h8
  obtain ⟨g, hg⟩ := Option.isSome_iff_exists.mp h6
  rw [List.getLastD_eq_getLast?] at h8
  simp [convStep, h1, h2, h3, h4, h5, hg, h7, h8]

/-- Witness for C1 (amended) at the word "kaa", position 2, with the
output `কা` accumulated (its last glyph `া` is a kar): the final vowel
"a" is emitted literally as 'a'. -/
theorem claim1_witness :
    convStep "kaa".toList 2 ['\u0995', '\u09BE'] = (['a'], 1) := by
  have h := claim1_kar_guard_single "kaa".toList 2 ['\u0995', '\u09BE']
    (by decide) (by decide) (by decide) (by decide) (by decide) (by decide)
    (by decide) (by decide)
  rw [h]
  decide

/-- C10 (counterexample): `convert` can emit the independent vowel `ঋ`
(U+098B): the input consisting of that very character passes through
unchanged, so the output contains it. -/
theorem claim10_counterexample :
    '\u098B' ∈ convertBanglishToBengali ['\u098B'] := by
  have h1 : convertWord ['\u098B'] = ['\u098B'] := convertWord_id (by decide)
  have hd : lookupM commonWords (toLowerStr ['\u098B']) = none := by decide
  have hp : lookupM protoProps (toLowerStr ['\u098B']) = none := by decide
  have h2 : convertBanglishToBengali ['\u098B'] = ['\u098B'] := by
    rw [convertBanglishToBengali, if_neg (by decide), splitSpace_of_no_space (by decide)]
    simp only [List.map_cons, List.map_nil, wordOut, hd, hp, h1, joinSpace]
  rw [h2]
  decide

/-- C10 (amended): for every input that does not itself contain `ঋ`
(U+098B), `convert` never emits `ঋ` — the `ri` entry of the
independent-vowel table is unreachable, and no other table value
contains the glyph. -/
theorem claim10_no_ri_emitted :
    ∀ x : Str, '\u098B' ∉ x → '\u098B' ∉ convertBanglishToBengali x := by
  intro x hx hmem
  by_cases hnil : x = []
  · rw [hnil] at hmem
    simp [convertBanglishToBengali] at hmem
  · rw [convertBanglishToBengali, if_neg hnil] at hmem
    rcases joinSpace_mem hmem with he | ⟨w, hw, hcw⟩
    · exact absurd he (by decide)
    · rcases List.mem_map.mp hw with ⟨v, hv, rfl⟩
      rcases wordOut_chars _ hcw with h | h | ⟨p, hp, hcp⟩ | ⟨p, hp, hcp⟩
      · exact hx (splitSpace_subset x v hv _ h)
      · exact goodGlyphs_clean.2 h
      · exact (commonWords_val_clean p hp).2 hcp
      · exact protoProps_no_ri p hp hcp

/-- Witness for C10 (amended) at the input "kori". -/
theorem claim10_witness : '\u098B' ∉ convertBanglishToBengali "kori".toList :=
  claim10_no_ri_emitted "kori".toList (by decide)

/-- Evaluation of `convert` on the input "constructor": the word misses
the dictionary's own keys but hits the inherited
`Object.prototype.constructor`, and the program returns its
stringification. -/
theorem convert_constructor_eq :
    convertBanglishToBengali "constructor".toList =
      "function Object() \x7b [native code] \x7d".toList := by
  have hd : lookupM commonWords (toLowerStr "constructor".toList) = none := by decide
  have hp : lookupM protoProps (toLowerStr "constructor".toList) =
      some "function Object() \x7b [native code] \x7d".toList := by decide
  rw [convertBanglishToBengali, if_neg (by decide), splitSpace_of_no_space (by decide)]
  simp only [List.map_cons, List.map_nil, wordOut, hd, hp, joinSpace]

/-- C8 (counterexample): word count is not always preserved: the input
"constructor" is one space-separated field, but the program returns the
stringified inherited `Object.prototype.constructor`, which has six. -/
theorem claim8_counterexample :
    (splitSpace (convertBanglishToBengali "constructor".toList)).length = 6 ∧
    (splitSpace "constructor".toList).length = 1 := by
  rw [convert_constructor_eq]
  exact ⟨by decide, by decide⟩

/-- C8 (amended): `convert` splits on the literal space character,
converts each field independently and rejoins with a single space; for
every input none of whose fields lower-cases to an inherited
`Object.prototype` property name, no emitted word contains a space, so
the number of space-separated fields of the output equals that of the
input. -/
theorem claim8_word_count :
    ∀ x : Str, (∀ w ∈ splitSpace x, lookupM protoProps (toLowerStr w) = none) →
      (splitSpace (convertBanglishToBengali x)).length = (splitSpace x).length := by
  intro x hx
  by_cases hnil : x = []
  · rw [hnil]
    simp [convertBanglishToBengali]
  · rw [convertBanglishToBengali, if_neg hnil]
    have hclean : ∀ w ∈ (splitSpace x).map wordOut, ' ' ∉ w := by
      intro w hw hsp
      rcases List.mem_map.mp hw with ⟨v, hv, rfl⟩
      rcases hdo : lookupM commonWords (toLowerStr v) with _ | u
      · simp only [wordOut, hdo, hx v hv] at hsp
        rcases convertWord_chars _ hsp with h | h
        · exact splitSpace_no_space x v hv h
        · exact goodGlyphs_clean.1 h
      · simp only [wordOut, hdo] at hsp
        exact (commonWords_val_clean _ (lookupM_mem hdo)).1 hsp
    rw [splitSpace_joinSpace_length _ (by simp [splitSpace_ne_nil]) hclean, List.length_map]

/-- Witness for C8 (amended) at the input "ami 123". -/
theorem claim8_witness :
    (splitSpace (convertBanglishToBengali "ami 123".toList)).length =
      (splitSpace "ami 123".toList).length :=
  claim8_word_count "ami 123".toList (by decide)

/-- C7: if no word of the input hits the dictionary and no probed
substring of any word matches any table key, `convert` returns the input
unchanged, and `convert` is idempotent on such input. -/
theorem claim7_passthrough_idempotent :
    ∀ x : Str,
      (∀ w ∈ splitSpace x,
        lookupM commonWords (toLowerStr w) = none ∧ ∀ i, i < w.length → noKeyAt w i) →
      convertBanglishToBengali x = x ∧
      convertBanglishToBengali (convertBanglishToBengali x) = convertBanglishToBengali x := by
  intro x H
  have hid : convertBanglishToBengali x = x := by
    by_cases hnil : x = []
    · rw [hnil]
      simp [convertBanglishToBengali]
    · rw [convertBanglishToBengali, if_neg hnil]
      have hmap : (splitSpace x).map wordOut = splitSpace x := by
        have : ∀ w ∈ splitSpace x, wordOut w = w := by
          intro w hw
          obtain ⟨hd, hk⟩ := H w hw
          have hproto : lookupM protoProps (toLowerStr w) = none := by
            cases hp : lookupM protoProps (toLowerStr w) with
            | none => rfl
            | some v =>
              obtain ⟨j, hj, hkey⟩ := protoProps_key_consonant hp
              obtain ⟨g, hg⟩ := Option.isSome_iff_exists.mp hkey
              rw [(hk j hj).2.2.2.2.1] at hg
              cases hg
          simp only [wordOut, hd, hproto]
          exact convertWord_id hk
        calc (splitSpace x).map wordOut = (splitSpace x).map id :=
              List.map_congr_left this
          _ = splitSpace x := List.map_id _
      rw [hmap, joinSpace_splitSpace]
  exact ⟨hid, by rw [hid, hid]⟩

/-- Witness for C7 at the already-Bengali input "আমি, ভাত!". -/
theorem claim7_witness :
    convertBanglishToBengali "আমি, ভাত!".toList = "আমি, ভাত!".toList ∧
    convertBanglishToBengali (convertBanglishToBengali "আমি, ভাত!".toList) =
      convertBanglishToBengali "আমি, ভাত!".toList :=
  claim7_passthrough_idempotent "আমি, ভাত!".toList (by decide)

/-- C3 (counterexample): the word "constructor" lower-cases to no
dictionary key, yet the dictionary stage is applied anyway: the
JavaScript property probe `commonWords['constructor']` finds the
inherited `Object.prototype.constructor`, so the program returns its
stringification and never runs the character engine on the word. -/
theorem claim3_counterexample :
    lookupM commonWords (toLowerStr "constructor".toList) = none ∧
    convertBanglishToBengali "constructor".toList =
      "function Object() \x7b [native code] \x7d".toList ∧
    convertBanglishToBengali "constructor".toList ≠ convertWord "constructor".toList := by
  refine ⟨by decide, convert_constructor_eq, ?_⟩
  rw [convert_constructor_eq]
  have hcw : convertWord "constructor".toList =
      ['\u099A', '\u09CB', '\u09A8', '\u09B8', '\u09A4', '\u09B0', '\u09C1',
       '\u099A', '\u09A4', '\u09CB', '\u09B0'] := by
    simp [convertWord, convGo, convStep, substr, charAt, indepOf2, indepOf1,
      lookupM, consonants, vowels, independentVowels, numbers, karsL]
  rw [hcw]
  decide

/-- C3 (amended): dictionary override.  (1) Any input whose lower-casing
is a dictionary key converts to the dictionary value (the character
engine is bypassed); (2) a single word whose lower-casing is neither a
dictionary key nor an inherited `Object.prototype` property name — in
particular one merely containing a key as a proper substring — converts
to `convertWord` of the word; (3) on nonempty input the conversion is
exactly: split on spaces, per-word dictionary-or-engine, rejoin. -/
theorem claim3_dictionary_override :
    (∀ w v : Str, lookupM commonWords (toLowerStr w) = some v →
      convertBanglishToBengali w = v) ∧
    (∀ w : Str, w ≠ [] → ' ' ∉ w → lookupM commonWords (toLowerStr w) = none →
      lookupM protoProps (toLowerStr w) = none →
      convertBanglishToBengali w = convertWord w) ∧
    (∀ text : Str, text ≠ [] →
      convertBanglishToBengali text = joinSpace ((splitSpace text).map wordOut)) := by
  refine ⟨?_, ?_, ?_⟩
  · intro w v h
    have h0 : lookupM commonWords (toLowerStr []) = none := by decide
    have hw_ne : w ≠ [] := by
      intro he
      rw [he, h0] at h
      cases h
    have hkey := lookupM_mem h
    have hsp : ' ' ∉ w := by
      intro hs
      refine commonWords_no_space_key _ hkey ?_
      simp only [toLowerStr]
      exact List.mem_map.mpr ⟨' ', hs, by decide⟩
    rw [convertBanglishToBengali, if_neg hw_ne, splitSpace_of_no_space hsp]
    simp [joinSpace, wordOut, h]
  · intro w hne hsp hd hp
    rw [convertBanglishToBengali, if_neg hne, splitSpace_of_no_space hsp]
    simp [joinSpace, wordOut, hd, hp]
  · intro t ht
    rw [convertBanglishToBengali, if_neg ht]

/-- Witness for C3: the dictionary word "Ami" (any case) converts to the
dictionary value, and "amit" (which properly contains the key "ami")
goes to the character engine instead. -/
theorem claim3_witness :
    convertBanglishToBengali "Ami".toList = "আমি".toList ∧
    convertBanglishToBengali "amit".toList = convertWord "amit".toList :=
  ⟨claim3_dictionary_override.1 "Ami".toList "আমি".toList (by decide),
   claim3_dictionary_override.2.1 "amit".toList (by decide) (by decide) (by decide)
     (by decide)⟩


/-- C5: for a word beginning with a vowel-table pattern (1 or 2
characters), the first glyph emitted by the character engine is an
independent-vowel glyph (obtained from the independent-vowel table, for a
2-character pattern falling back to its first character's entry), never a
dependent diacritic. -/
theorem claim5_initial_vowel_independent :
    ∀ (c1 : Char) (rest : Str),
      ((lookupM vowels [c1]).isSome ∨
        ∃ c2 r, rest = c2 :: r ∧ (lookupM vowels [c1, c2]).isSome) →
      ∃ g, (convertWord (c1 :: rest)).head? = some g ∧ g ∈ indepChars ∧ g ∉ karsL := by
  intro c1 rest hyp
  have hv1 : (lookupM vowels [c1]).isSome := by
    rcases hyp with h | ⟨c2, r, hr, h2⟩
    · exact h
    · obtain ⟨g2, hg2⟩ := Option.isSome_iff_exists.mp h2
      have := vowels_take1_key _ (lookupM_mem hg2)
      simpa using this
  obtain ⟨gv, hgv⟩ := Option.isSome_iff_exists.mp hv1
  have hq : ([c1], gv) ∈ vowels := lookupM_mem hgv
  have hqh : (([c1], gv) : Str × Str).1.head? = some c1 := rfl
  have hch : charAt (c1 :: rest) 0 = c1 := rfl
  have h0len : 0 < (c1 :: rest).length := by simp
  -- analyse the first scan step
  rcases convStep_inv (c1 :: rest) 0 [] with ⟨g, hg, hs⟩ | ⟨-, g, hg, hs⟩ | ⟨-, -, g, hg, hs⟩ |
    ⟨-, -, -, ⟨g, hg, hs⟩ | ⟨-, g, hg, hs⟩ | ⟨-, -, g, hg, hs⟩ | ⟨-, -, hvn, -⟩⟩
  · -- a 3-character consonant match is impossible: no consonant key starts
    -- with a vowel-key character
    obtain ⟨-, hlk⟩ := guard_some hg
    have hkey := lookupM_mem hlk
    have hhead : (substr (c1 :: rest) 0 3).head? = some c1 := by
      simp [substr]
    exact absurd (hhead.trans hqh.symm) (consonants_head_not_vowel_head _ hkey _ hq)
  · -- likewise for a 2-character consonant match
    obtain ⟨-, hlk⟩ := guard_some hg
    have hkey := lookupM_mem hlk
    have hhead : (substr (c1 :: rest) 0 2).head? = some c1 := by
      simp [substr]
    exact absurd (hhead.trans hqh.symm) (consonants_head_not_vowel_head _ hkey _ hq)
  · -- 2-character vowel match at position 0: independent form
    obtain ⟨-, hlk⟩ := guard_some hg
    have hkey := lookupM_mem hlk
    have hform := vowels_indep_form _ hkey
    obtain ⟨g2, hg2⟩ := List.length_eq_one.mp hform.1
    have hmem2 : g2 ∈ indepOf2 (substr (c1 :: rest) 0 2) := by
      rw [hg2]
      simp
    obtain ⟨hic, hik⟩ := hform.2 g2 hmem2
    refine ⟨g2, ?_, hic, hik⟩
    rw [convertWord, convGo_unfold [] h0len, hs]
    rw [if_pos (Or.inl rfl), hg2]
    obtain ⟨t, ht⟩ := convGo_append (c1 :: rest) (0 + 2) ([] ++ [g2]) (by simp)
    rw [ht]
    simp
  · -- a numeral match is impossible
    rw [hch] at hg
    exact absurd rfl (numbers_head_not_vowel_head ([c1], g) (lookupM_mem hg) ([c1], gv) hq)
  · -- a 1-character consonant match is impossible
    rw [hch] at hg
    exact absurd rfl (consonants_head_not_vowel_head ([c1], g) (lookupM_mem hg) ([c1], gv) hq)
  · -- 1-character vowel match at position 0: independent form
    rw [hch] at hg
    have hkey := lookupM_mem hg
    have hform := vowels_indep_form _ hkey
    obtain ⟨g2, hg2⟩ := List.length_eq_one.mp hform.1
    have hmem2 : g2 ∈ indepOf2 [c1] := by
      rw [hg2]
      simp
    obtain ⟨hic, hik⟩ := hform.2 g2 hmem2
    refine ⟨g2, ?_, hic, hik⟩
    rw [convertWord, convGo_unfold [] h0len, hs]
    rw [if_pos (Or.inl rfl), hch, indepOf1_eq, hg2]
    obtain ⟨t, ht⟩ := convGo_append (c1 :: rest) (0 + 1) ([] ++ [g2]) (by simp)
    rw [ht]
    simp
  · -- no vowel key at all would contradict the hypothesis
    rw [hch] at hvn
    rw [hvn] at hgv
    cases hgv

/-- Witness for C5 at the word "oi" (2-character vowel pattern). -/
theorem claim5_witness :
    ∃ g, (convertWord "oi".toList).head? = some g ∧ g ∈ indepChars ∧ g ∉ karsL :=
  claim5_initial_vowel_independent 'o' ['i'] (Or.inr ⟨'i', [], rfl, by decide⟩)


/-! ### Lemmas for the longest-match property -/

theorem substr_two {w : Str} {i : Nat} (h : i + 1 < w.length) :
    substr w i 2 = [w[i], w[i + 1]] := by
  have h0 : i < w.length := by omega
  rw [substr, List.drop_eq_getElem_cons h0, List.drop_eq_getElem_cons h]
  rfl

theorem substr_three {w : Str} {i : Nat} (h : i + 2 < w.length) :
    substr w i 3 = [w[i], w[i + 1], w[i + 2]] := by
  have h0 : i < w.length := by omega
  have h1 : i + 1 < w.length := by omega
  rw [substr, List.drop_eq_getElem_cons h0, List.drop_eq_getElem_cons h1,
    List.drop_eq_getElem_cons (show i + 1 + 1 < w.length by omega)]
  rfl

/-- At a position where the word continues with "chh", the scan step
emits `ছ` and advances 3. -/
theorem convStep_at_chh {w : Str} {p : Nat} (hlen : p + 3 ≤ w.length)
    (hc : w[p]? = some 'c') (hh1 : w[p + 1]? = some 'h') (hh2 : w[p + 2]? = some 'h')
    (res : Str) : convStep w p res = (['\u099B'], 3) := by
  have hg : p + 2 < w.length := by omega
  have hc' : w[p] = 'c' := by
    rw [List.getElem?_eq_getElem (by omega)] at hc
    exact Option.some.inj hc
  have hh1' : w[p + 1] = 'h' := by
    rw [List.getElem?_eq_getElem (by omega)] at hh1
    exact Option.some.inj hh1
  have hh2' : w[p + 2] = 'h' := by
    rw [List.getElem?_eq_getElem (by omega)] at hh2
    exact Option.some.inj hh2
  have hsub : substr w p 3 = ['c', 'h', 'h'] := by
    rw [substr_three hg, hc', hh1', hh2']
  have hlk : lookupM consonants ['c', 'h', 'h'] = some ['\u099B'] := by decide
  simp [convStep, hg, hsub, hlk]

/-- While scanning strictly before an occurrence of 'c', no step jumps
over it: no 2-character key has 'c' as its second character and the only
3-character key is "chh". -/
theorem convStep_no_skip {w : Str} {p : Nat} (hplen : p < w.length)
    (hc : w[p] = 'c') {i : Nat} (hlt : i < p) (res : Str) :
    i + (convStep w i res).2 ≤ p := by
  rcases convStep_inv w i res with ⟨g, hg, hs⟩ | ⟨-, g, hg, hs⟩ | ⟨-, -, g, hg, hs⟩ |
    ⟨-, -, -, ⟨g, -, hs⟩ | ⟨-, g, -, hs⟩ | ⟨-, -, g, -, hs⟩ | ⟨-, -, -, hs⟩⟩
  · -- 3-character consonant match: the key is "chh", whose 2nd and 3rd
    -- characters are 'h', so 'c' cannot sit at i+1 or i+2
    rw [hs]
    simp only []
    by_contra hgt
    push_neg at hgt
    obtain ⟨hguard, hlk⟩ := guard_some hg
    have hkey := lookupM_mem hlk
    have hlen3 : (substr w i 3).length = 3 := by
      simp [substr]
      omega
    have hchh := consonants_len3_chh _ hkey hlen3
    rw [substr_three hguard] at hchh
    simp only [List.cons.injEq, and_true] at hchh
    obtain ⟨-, h1, h2⟩ := hchh
    have hp12 : p = i + 1 ∨ p = i + 2 := by omega
    rcases hp12 with rfl | rfl
    · rw [hc] at h1
      exact absurd h1 (by decide)
    · rw [hc] at h2
      exact absurd h2 (by decide)
  · -- 2-character consonant match: no consonant key has 'c' second
    rw [hs]
    simp only []
    by_contra hgt
    push_neg at hgt
    obtain ⟨hguard, hlk⟩ := guard_some hg
    have hkey := lookupM_mem hlk
    have hsnd := consonants_snd_not_c _ hkey
    rw [substr_two hguard] at hsnd
    apply hsnd
    have hp1 : p = i + 1 := by omega
    subst hp1
    simp [hc]
  · -- 2-character vowel match: no vowel key has 'c' second
    rw [hs]
    simp only []
    by_contra hgt
    push_neg at hgt
    obtain ⟨hguard, hlk⟩ := guard_some hg
    have hkey := lookupM_mem hlk
    have hsnd := vowels_snd_not_c _ hkey
    rw [substr_two hguard] at hsnd
    apply hsnd
    have hp1 : p = i + 1 := by omega
    subst hp1
    simp [hc]
  all_goals rw [hs]
  all_goals simp only []
  all_goals omega

/-- C4: longest-match precedence for the 3-character pattern "chh": in
any word containing "chh" at position `p`, the scan arrives at `p`
exactly, matches the full 3-character pattern in the consonant table,
emits the single glyph `ছ` and jumps to `p + 3` — the occurrence is never
split into shorter matches.  Stated for every scan state at or before `p`
and, in particular, for `convertWord` itself. -/
theorem claim4_longest_match_chh :
    ∀ (w : Str) (p : Nat), p + 3 ≤ w.length →
      w[p]? = some 'c' → w[p + 1]? = some 'h' → w[p + 2]? = some 'h' →
      (∀ (i : Nat) (res : Str), i ≤ p →
        ∃ res2, convGo w i res = convGo w (p + 3) (res2 ++ ['\u099B'])) ∧
      ∃ res2, convertWord w = convGo w (p + 3) (res2 ++ ['\u099B']) := by
  intro w p hlen hc hh1 hh2
  have hplen : p < w.length := by omega
  have hc' : w[p] = 'c' := by
    rw [List.getElem?_eq_getElem hplen] at hc
    exact Option.some.inj hc
  have main : ∀ (n i : Nat) (res : Str), i ≤ p → p - i ≤ n →
      ∃ res2, convGo w i res = convGo w (p + 3) (res2 ++ ['\u099B']) := by
    intro n
    induction n with
    | zero =>
      intro i res hip hni
      have hip' : i = p := by omega
      subst hip'
      refine ⟨res, ?_⟩
      rw [convGo_unfold res (by omega), convStep_at_chh hlen hc hh1 hh2 res]
    | succ n ih =>
      intro i res hip hni
      rcases Nat.eq_or_lt_of_le hip with rfl | hlt
      · refine ⟨res, ?_⟩
        rw [convGo_unfold res (by omega), convStep_at_chh hlen hc hh1 hh2 res]
      · have hilen : i < w.length := by omega
        rw [convGo_unfold res hilen]
        have hadv : i + (convStep w i res).2 ≤ p := convStep_no_skip hplen hc' hlt res
        have hpos := (convStep_adv_bounds w i res).1
        exact ih (i + (convStep w i res).2) (res ++ (convStep w i res).1) hadv (by omega)
  refine ⟨fun i res hip => main (p - i) i res hip (Nat.le_refl _), ?_⟩
  exact main p 0 [] (Nat.zero_le p) (by omega)

/-- Witness for C4 at the word "machhi" with "chh" at position 2. -/
theorem claim4_witness :
    ∃ res2, convertWord "machhi".toList =
      convGo "machhi".toList (2 + 3) (res2 ++ ['\u099B']) :=
  (claim4_longest_match_chh "machhi".toList 2 (by decide) (by decide) (by decide)
    (by decide)).2

end Banglish
